import Mathlib

/-!
Shallow embedding of `pyar/aggregator.py` (repository `yotepya1/pyar`).

The Python module drives combinatorial growth of molecular aggregates: an
aggregate-id codec (`update_id`), a pathway enumerator with a resumable
window (`aggregate`), a per-step seed-growth engine (`add_one`) with a
bounded convergence loop and a final strict re-optimisation pass, and the
orientation-count escalation schedules of `solvate` and `aggregate`.

External collaborators (`optimise`, `tabu.generate_orientations`,
`clustering.remove_similar`, `clustering.choose_geometries`, file
management) are modelled as explicit function parameters.  Molecules are
modelled by an arbitrary type with decidable equality: Python compares
Molecule objects by identity, and the code reuses one object per species,
so units of one species are equal and units of different species are not.
Side effects a claim mentions (directories created) are returned
explicitly.
-/

namespace Pyar

variable {α : Type*} {V : Type*}

/-- Decimal digit characters of `n`, most significant first: the digit
sequence Python produces when formatting a nonnegative integer. -/
def toDecimal (n : Nat) : List Char :=
  if _h : n < 10 then [Nat.digitChar n]
  else toDecimal (n / 10) ++ [Nat.digitChar (n % 10)]
termination_by n
decreasing_by exact Nat.div_lt_self (by omega) (by omega)

/-- Models the Python format spec `"{:03d}"` on a nonnegative integer:
decimal digits left-padded with `'0'` to a minimum width of 3. -/
def fmt3 (n : Nat) : List Char :=
  List.replicate (3 - (toDecimal n).length) '0' ++ toDecimal n

/-- Numeric value of a digit string, read left to right. -/
def digitsVal (cs : List Char) : Nat :=
  cs.foldl (fun a c => 10 * a + (c.toNat - 48)) 0

/-- Models Python `int(s)` on the count tokens of well-formed aggregate
ids: a nonempty all-digit string parses to its value; anything else is a
parse failure (`ValueError`).  Other `int()` inputs (signs, whitespace)
never occur in ids the codec itself produced. -/
def parseNat (cs : List Char) : Option Nat :=
  if cs ≠ [] ∧ cs.all Char.isDigit then some (digitsVal cs) else none

/-- Models Python `aid.split('_')` on the character list of `aid`: split
at every underscore, keeping empty fields; `[[]]` on the empty string. -/
def splitU : List Char → List (List Char)
  | [] => [[]]
  | c :: cs =>
    if c = '_' then [] :: splitU cs
    else
      match splitU cs with
      | [] => [[c]]
      | t :: ts => (c :: t) :: ts

/-- The `while parts_of_aid:` loop of `update_id`: consume the tokens
after the id's leading tag two at a time as `(species, count)`,
re-emitting `_species_{count:03d}` with the count incremented exactly
when the species equals `mon` (`d[cid]` is freshly assigned from `int(n)`
on every iteration, so this per-pair reparse matches the Python dict).
`none` models the exceptions Python would raise on a malformed id: an odd
token count (`IndexError` from `popleft`) or a non-numeric count token
(`ValueError` from `int`). -/
def updateTokens (mon : List Char) : List (List Char) → Option (List Char)
  | [] => some []
  | [_] => none
  | cid :: n :: rest =>
    match parseNat n with
    | none => none
    | some c0 =>
      let c := if cid = mon then c0 + 1 else c0
      match updateTokens mon rest with
      | none => none
      | some tail => some (['_'] ++ cid ++ ['_'] ++ fmt3 c ++ tail)

/-- `update_id(aid, the_monomer)` from `aggregator.py` lines 22-40:
split on `'_'`, keep the first token as the leading tag, then rebuild the
id while bumping the matching species count.  (`split` never returns an
empty list, so the first branch is unreachable.) -/
def update_id (aid the_monomer : String) : Option String :=
  match splitU aid.data with
  | [] => none
  | p :: rest => (updateTokens the_monomer.data rest).map (fun t => String.mk (p ++ t))

/-- Character list of the `_species_{count:03d}` blocks of a well-formed
aggregate id, one block per `(species, count)` pair. -/
def renderPairs : List (List Char × Nat) → List Char
  | [] => []
  | q :: rest => ['_'] ++ q.1 ++ ['_'] ++ fmt3 q.2 ++ renderPairs rest

/-- A well-formed aggregate id: a leading tag `pre` followed by the
`_species_{count:03d}` block of each pair, exactly the shape
`"ag" + f"_{seed_name}_000"` builds and `update_id` reproduces. -/
def renderAid (pre : List Char) (pairs : List (List Char × Nat)) : String :=
  String.mk (pre ++ renderPairs pairs)

/-- Increment the count of every pair whose species tag is `mon`, leaving
every other pair unchanged: the claim-side description of one advance. -/
def incrPairs (mon : List Char) (pairs : List (List Char × Nat)) : List (List Char × Nat) :=
  pairs.map (fun q => (q.1, if q.1 = mon then q.2 + 1 else q.2))

/-- `monomers_to_be_added` of `aggregate` (lines 169-174): each species
repeated `unit_count` times, in input order.  Python appends the same
Molecule object for every unit of one species (tagged with the species
letter), so a monomer instance is modelled by its species tag. -/
def monomersToBeAdded (specs : List (String × Nat)) : List String :=
  specs.flatMap (fun q => List.replicate q.2 q.1)

/-- `complete_pathways = list(set(itertools.permutations(monomers_to_be_added)))`
(line 176): the distinct permutations of the monomer list — units of one
species are the identical Python object, so permutations that reorder
equal units collapse to one set element.  `List.permutations'`
enumerates, like `itertools.permutations`, all `n!` orderings of the
list; `dedup` models the set.  The model fixes one enumeration order;
Python's set order is unspecified. -/
def complete_pathways (monomers : List String) : List (List String) :=
  monomers.permutations'.dedup

/-- `pathways_to_calculate = complete_pathways[first_pathway : my_last_pathway]`
(lines 178-183) with `my_last_pathway = first_pathway + number_of_pathways`
when `number_of_pathways != 0`, and `None` — the end of the list —
otherwise. -/
def pathwaysToCalculate (u : List (List String)) (first_pathway number_of_pathways : Nat) :
    List (List String) :=
  if number_of_pathways ≠ 0 then (u.take (first_pathway + number_of_pathways)).drop first_pathway
  else u.drop first_pathway

/-- The distinct permutations of `l` as a finite set (counting device for
`complete_pathways`). -/
def permFinset [DecidableEq α] (l : List α) : Finset (List α) :=
  l.permutations'.toFinset

/-- Optimisation status.  Python's `optimise` returns `True` on
convergence or the string `'CycleExceeded'`; `add_one` tests exactly
those two values, so every other return value behaves as a failure. -/
inductive OptStatus where
  | converged
  | cycleExceeded
  | failed

deriving instance DecidableEq, Repr for OptStatus

/-- The `for i in range(10)` convergence loop of `add_one` (lines 86-97):
each round optimises the whole pool with the loose threshold, moves
converged candidates onto the accumulated list, keeps cycle-exceeded ones
for the next round after `clustering.remove_similar`, and drops the rest;
the loop breaks early once the pool is empty.  `opt round mol` models
`optimise(mol, method, max_cycles=100, convergence='loose')` as run
during round `round`; `dedup` models `remove_similar`.  Returns the
accumulated list and the number of optimisation rounds actually run. -/
def convRounds (opt : Nat → α → OptStatus) (dedup : List α → List α) :
    Nat → Nat → List α → List α → List α × Nat
  | 0, _, acc, _ => (acc, 0)
  | fuel + 1, round, acc, pool =>
    if pool.isEmpty then (acc, 0)
    else
      let stats := pool.zip (pool.map (opt round))
      let conv := (stats.filter (fun q => q.2 == OptStatus.converged)).map Prod.fst
      let notConv := (stats.filter (fun q => q.2 == OptStatus.cycleExceeded)).map Prod.fst
      let res := convRounds opt dedup fuel (round + 1) (acc ++ conv) (dedup notConv)
      (res.1, res.2 + 1)

/-- External collaborators and stop-signal environment of one `add_one`
call.  `stopAtEntry` is the `check_stop_signal()` poll at function entry
and `stopBeforeSeed i` the poll before seed `i` (the sentinel file can
appear between polls, so each poll is independent).  `optimiseLoose i`
is the loose optimisation used for seed `i`'s pool, `optimiseNormal` the
final strict pass, `removeSimilar` and `chooseGeometries` the clustering
collaborators, and `generateOrientations i` the candidate structures
`tabu.generate_orientations` yields for seed `i`. -/
structure AddOneEnv (α : Type*) where
  stopAtEntry : Bool
  stopBeforeSeed : Nat → Bool
  generateOrientations : Nat → List α
  optimiseLoose : Nat → Nat → α → OptStatus
  removeSimilar : List α → List α
  chooseGeometries : List α → Nat → List α
  optimiseNormal : α → OptStatus

/-- `add_one`'s possible return values: `return StopIteration` at entry,
the bare `return` (Python `None`) on a stop signal inside the seed loop,
or a list of structures. -/
inductive AddOneResult (α : Type*) where
  | stopIteration
  | interrupted
  | seeds (l : List α)

deriving instance DecidableEq for AddOneResult

/-- Observable outcome of `add_one`: the returned value together with the
directories the call created (`seed_NNN` per processed seed, plus
`selected` when final clustering runs). -/
structure AddOneOut (α : Type*) where
  result : AddOneResult α
  dirsCreated : List String

/-- The `for seed_count, each_seed in enumerate(seeds)` loop of `add_one`
(lines 70-99): poll the stop signal, create `seed_{seed_count:03d}`,
generate the orientation pool and run the 10-round convergence loop,
extending the shared accumulated list in seed order.  Returns `none` for
the bare `return` taken when the stop signal appears. -/
def addOneSeedLoop (env : AddOneEnv α) :
    List α → Nat → List α → List String → Option (List α) × List String
  | [], _, acc, dirs => (some acc, dirs)
  | _ :: rest, i, acc, dirs =>
    if env.stopBeforeSeed i then (none, dirs)
    else
      let dir := "seed_" ++ String.mk (fmt3 i)
      let pool := env.generateOrientations i
      let r := convRounds (env.optimiseLoose i) env.removeSimilar 10 0 [] pool
      addOneSeedLoop env rest (i + 1) (acc ++ r.1) (dirs ++ [dir])

/-- The final strict re-optimisation loop of `add_one` (lines 108-115).
Python iterates `for each_file in selected_seeds` by position while
`selected_seeds.remove(each_file)` mutates the same list, so after a
removal the iteration index skips the element that slid into the removed
slot; `remove` deletes the first element equal to its argument
(`List.erase`).  The position index `i` advances every iteration and the
loop stops once it reaches the current list length; each iteration keeps
the list or shortens it by one, so the initial length bounds the number
of iterations and is supplied as structural fuel by `finalLoop`. -/
def finalLoopAux [DecidableEq α] (optN : α → OptStatus) : Nat → List α → Nat → List α
  | 0, l, _ => l
  | fuel + 1, l, i =>
    if h : i < l.length then
      if optN (l.get ⟨i, h⟩) = OptStatus.converged then
        finalLoopAux optN fuel l (i + 1)
      else
        finalLoopAux optN fuel (l.erase (l.get ⟨i, h⟩)) (i + 1)
    else l

/-- `for each_file in selected_seeds: ...` of `add_one` run from position
0 with enough fuel for every iteration. -/
def finalLoop [DecidableEq α] (optN : α → OptStatus) (l : List α) : List α :=
  finalLoopAux optN l.length l 0

/-- `add_one(aggregate_id, seeds, monomer, hm_orientations, method,
maximum_number_of_seeds)` (lines 43-116), with the collaborators drawn
from `env`: entry stop poll, per-seed growth, then — whenever the
accumulated pool has at least 2 members — clustering selection followed
by the strict re-optimisation loop. -/
def add_one [DecidableEq α] (env : AddOneEnv α) (seeds : List α)
    (maximum_number_of_seeds : Nat) : AddOneOut α :=
  if env.stopAtEntry then ⟨AddOneResult.stopIteration, []⟩
  else
    match addOneSeedLoop env seeds 0 [] [] with
    | (none, dirs) => ⟨AddOneResult.interrupted, dirs⟩
    | (some pool, dirs) =>
      if pool.length < 2 then ⟨AddOneResult.seeds pool, dirs⟩
      else
        let selected := env.chooseGeometries pool maximum_number_of_seeds
        ⟨AddOneResult.seeds (finalLoop env.optimiseNormal selected),
          dirs ++ ["selected"]⟩

/-- The orientation-count schedule of `solvate` in `'auto'` mode
(lines 232-233 and 252-253): `number_of_orientations` starts at 8 and
after each aggregation cycle runs
`if number_of_orientations <= 256: number_of_orientations *= 2`. -/
def solvateOrientations : Nat → Nat
  | 0 => 8
  | k + 1 =>
    let o := solvateOrientations k
    if o ≤ 256 then o * 2 else o

/-- The orientation-count schedule of `aggregate` in `'auto'` mode
(lines 154-155 and 218-219): starts at 8 and after each pathway runs
`if number_of_orientations <= 256: number_of_orientations += 8`. -/
def aggregateOrientations : Nat → Nat
  | 0 => 8
  | k + 1 =>
    let o := aggregateOrientations k
    if o ≤ 256 then o + 8 else o

/-- `seed_storage[k] = v` on the `OrderedDict`: overwrite in place when
the key exists (keeping its position), otherwise append as the newest
entry. -/
def odSet (k : String) (v : V) : List (String × V) → List (String × V)
  | [] => [(k, v)]
  | q :: rest => if q.1 = k then (k, v) :: rest else q :: odSet k v rest

/-- `seed_storage[k]` lookup; `none` models `KeyError`. -/
def odGet (k : String) : List (String × V) → Option V
  | [] => none
  | q :: rest => if q.1 = k then some q.2 else odGet k rest

/-- `seed_storage.popitem(last=False)`: remove the first-inserted entry;
`none` models the `KeyError` raised on an empty dict. -/
def odPopFront : List (String × V) → Option (List (String × V))
  | [] => none
  | _ :: rest => some rest

/-- State threaded through `aggregate`'s inner pathway loop: the current
aggregate id `ag_id` and `seed_storage` as its ordered entry list. -/
structure AggState (V : Type*) where
  agId : String
  storage : List (String × V)

/-- One iteration of `for this_monomer in i:` inside `aggregate`
(lines 194-213).  `mon` is `this_monomer.name`.  On an empty storage the
id is advanced and `seed_storage[ag_id] = [this_monomer]` seeds it
(`singletonVal mon` models `[this_monomer]`); otherwise the previous
seeds are read at the current id, the id is advanced, the `add_one`
result (`addOneVal newId thisSeed mon`) is stored under the new id, and
`popitem(last=False)` retires the oldest entry.  `none` models an
uncaught Python exception. -/
def pathwayStep (singletonVal : String → V) (addOneVal : String → V → String → V)
    (st : AggState V) (mon : String) : Option (AggState V) :=
  if st.storage.length < 1 then
    match update_id st.agId mon with
    | none => none
    | some newId => some ⟨newId, odSet newId (singletonVal mon) st.storage⟩
  else
    match odGet st.agId st.storage with
    | none => none
    | some thisSeed =>
      match update_id st.agId mon with
      | none => none
      | some newId =>
        match odPopFront (odSet newId (addOneVal newId thisSeed mon) st.storage) with
        | none => none
        | some storage2 => some ⟨newId, storage2⟩

/-- The whole `for this_monomer in i:` walk over one pathway. -/
def pathwayWalk (singletonVal : String → V) (addOneVal : String → V → String → V) :
    AggState V → List String → Option (AggState V)
  | st, [] => some st
  | st, mon :: rest =>
    match pathwayStep singletonVal addOneVal st mon with
    | none => none
    | some st2 => pathwayWalk singletonVal addOneVal st2 rest

/-- Concrete environment exhibiting the final-pass slip of `add_one`: one
seed whose two orientations both converge loosely, a clustering collator
that returns its input unchanged (within the at-most-`N` contract for
`N = 2`), and a strict final pass that fails every candidate. -/
def envFinalPass : AddOneEnv Nat where
  stopAtEntry := false
  stopBeforeSeed := fun _ => false
  generateOrientations := fun _ => [1, 2]
  optimiseLoose := fun _ _ _ => OptStatus.converged
  removeSimilar := fun l => l
  chooseGeometries := fun l _ => l
  optimiseNormal := fun _ => OptStatus.failed

/-- Concrete environment whose stop signal is present at entry. -/
def envStopped : AddOneEnv Nat where
  stopAtEntry := true
  stopBeforeSeed := fun _ => false
  generateOrientations := fun _ => []
  optimiseLoose := fun _ _ _ => OptStatus.converged
  removeSimilar := fun l => l
  chooseGeometries := fun l _ => l
  optimiseNormal := fun _ => OptStatus.converged

/-! ## Codec lemmas -/

theorem digitChar_isDigit {d : Nat} (h : d < 10) : (Nat.digitChar d).isDigit = true := by
  interval_cases d <;> decide

theorem digitChar_toNat_sub {d : Nat} (h : d < 10) : (Nat.digitChar d).toNat - 48 = d := by
  interval_cases d <;> decide

theorem toDecimal_ne_nil (n : Nat) : toDecimal n ≠ [] := by
  rw [toDecimal]
  split <;> simp

theorem toDecimal_all_isDigit (n : Nat) : ∀ c ∈ toDecimal n, c.isDigit = true := by
  induction n using Nat.strong_induction_on with
  | _ n ih =>
    rw [toDecimal]
    split
    next h =>
      intro c hc
      simp only [List.mem_singleton] at hc
      subst hc
      exact digitChar_isDigit h
    next h =>
      intro c hc
      rcases List.mem_append.mp hc with h1 | h2
      · exact ih (n / 10) (Nat.div_lt_self (by omega) (by omega)) c h1
      · simp only [List.mem_singleton] at h2
        subst h2
        exact digitChar_isDigit (Nat.mod_lt n (by omega))

theorem digitsVal_snoc (xs : List Char) (c : Char) :
    digitsVal (xs ++ [c]) = 10 * digitsVal xs + (c.toNat - 48) := by
  simp [digitsVal, List.foldl_append]

theorem digitsVal_toDecimal (n : Nat) : digitsVal (toDecimal n) = n := by
  induction n using Nat.strong_induction_on with
  | _ n ih =>
    rw [toDecimal]
    split
    next h =>
      simp only [digitsVal, List.foldl_cons, List.foldl_nil]
      rw [Nat.mul_zero, Nat.zero_add, digitChar_toNat_sub h]
    next h =>
      rw [digitsVal_snoc, ih (n / 10) (Nat.div_lt_self (by omega) (by omega)),
        digitChar_toNat_sub (Nat.mod_lt n (by omega))]
      omega

theorem digitsVal_cons_zero (cs : List Char) : digitsVal ('0' :: cs) = digitsVal cs := rfl

theorem digitsVal_replicate_zero (k : Nat) (cs : List Char) :
    digitsVal (List.replicate k '0' ++ cs) = digitsVal cs := by
  induction k with
  | zero => rfl
  | succ k ih => rw [List.replicate_succ, List.cons_append, digitsVal_cons_zero, ih]

theorem digitsVal_fmt3 (n : Nat) : digitsVal (fmt3 n) = n := by
  rw [fmt3, digitsVal_replicate_zero, digitsVal_toDecimal]

theorem fmt3_ne_nil (n : Nat) : fmt3 n ≠ [] := by
  rw [fmt3]
  intro h
  rcases List.append_eq_nil.mp h with ⟨-, h2⟩
  exact toDecimal_ne_nil n h2

theorem fmt3_mem_isDigit (n : Nat) : ∀ c ∈ fmt3 n, c.isDigit = true := by
  rw [fmt3]
  intro c hc
  rcases List.mem_append.mp hc with h1 | h2
  · rw [List.eq_of_mem_replicate h1]
    decide
  · exact toDecimal_all_isDigit n c h2

theorem parseNat_fmt3 (n : Nat) : parseNat (fmt3 n) = some n := by
  rw [parseNat, if_pos, digitsVal_fmt3]
  refine ⟨fmt3_ne_nil n, ?_⟩
  rw [List.all_eq_true]
  exact fmt3_mem_isDigit n

theorem fmt3_no_underscore (n : Nat) : '_' ∉ fmt3 n := by
  intro h
  have := fmt3_mem_isDigit n '_' h
  exact absurd this (by decide)

theorem fmt3_injective {a b : Nat} (h : fmt3 a = fmt3 b) : a = b := by
  have ha := digitsVal_fmt3 a
  rw [h, digitsVal_fmt3] at ha
  omega

theorem splitU_underscore (cs : List Char) : splitU ('_' :: cs) = [] :: splitU cs := by
  rw [splitU]
  simp

theorem splitU_append_of_no_underscore (xs ys : List Char) (h : '_' ∉ xs)
    (t : List Char) (ts : List (List Char)) (hy : splitU ys = t :: ts) :
    splitU (xs ++ ys) = (xs ++ t) :: ts := by
  induction xs with
  | nil => simpa using hy
  | cons c xs ih =>
    have hc : ¬ c = '_' := fun e => h (e ▸ List.mem_cons_self c xs)
    have hx : '_' ∉ xs := fun m => h (List.mem_cons_of_mem _ m)
    rw [List.cons_append, splitU, if_neg hc, ih hx]
    simp

theorem splitU_renderPairs (pairs : List (List Char × Nat))
    (h : ∀ q ∈ pairs, '_' ∉ q.1) :
    splitU (renderPairs pairs) = [] :: pairs.flatMap (fun q => [q.1, fmt3 q.2]) := by
  induction pairs with
  | nil => simp [renderPairs, splitU]
  | cons q rest ih =>
    have hq : '_' ∉ q.1 := h q (List.mem_cons_self q rest)
    have hrest : ∀ r ∈ rest, '_' ∉ r.1 := fun r hr => h r (List.mem_cons_of_mem _ hr)
    have h1 : splitU (fmt3 q.2 ++ renderPairs rest) =
        (fmt3 q.2 ++ []) :: rest.flatMap (fun r => [r.1, fmt3 r.2]) :=
      splitU_append_of_no_underscore _ _ (fmt3_no_underscore q.2) _ _ (ih hrest)
    have h2 : splitU ('_' :: (fmt3 q.2 ++ renderPairs rest)) =
        [] :: (fmt3 q.2 ++ []) :: rest.flatMap (fun r => [r.1, fmt3 r.2]) := by
      rw [splitU_underscore, h1]
    have h3 : splitU (q.1 ++ ('_' :: (fmt3 q.2 ++ renderPairs rest))) =
        (q.1 ++ []) :: (fmt3 q.2 ++ []) :: rest.flatMap (fun r => [r.1, fmt3 r.2]) :=
      splitU_append_of_no_underscore _ _ hq _ _ h2
    calc splitU (renderPairs (q :: rest))
        = splitU ('_' :: (q.1 ++ ('_' :: (fmt3 q.2 ++ renderPairs rest)))) := by
          rw [renderPairs]
          simp
      _ = [] :: (q.1 ++ []) :: (fmt3 q.2 ++ []) :: rest.flatMap (fun r => [r.1, fmt3 r.2]) := by
          rw [splitU_underscore, h3]
      _ = [] :: (q :: rest).flatMap (fun r => [r.1, fmt3 r.2]) := by
          simp

theorem updateTokens_flat (mon : List Char) (pairs : List (List Char × Nat)) :
    updateTokens mon (pairs.flatMap (fun q => [q.1, fmt3 q.2])) =
      some (renderPairs (incrPairs mon pairs)) := by
  induction pairs with
  | nil => simp [updateTokens, incrPairs, renderPairs]
  | cons q rest ih =>
    show updateTokens mon (q.1 :: fmt3 q.2 :: rest.flatMap (fun r => [r.1, fmt3 r.2])) = _
    rw [updateTokens, parseNat_fmt3, ih]
    simp [incrPairs, renderPairs]

theorem update_id_render (pre : List Char) (pairs : List (List Char × Nat))
    (mon : String) (hpre : '_' ∉ pre) (hsp : ∀ q ∈ pairs, '_' ∉ q.1) :
    update_id (renderAid pre pairs) mon = some (renderAid pre (incrPairs mon.data pairs)) := by
  rw [update_id]
  have hdata : (renderAid pre pairs).data = pre ++ renderPairs pairs := rfl
  rw [hdata,
    splitU_append_of_no_underscore pre (renderPairs pairs) hpre _ _
      (splitU_renderPairs pairs hsp)]
  show Option.map (fun t => String.mk ((pre ++ []) ++ t))
      (updateTokens mon.data (pairs.flatMap fun q => [q.1, fmt3 q.2])) =
    some (renderAid pre (incrPairs mon.data pairs))
  rw [updateTokens_flat]
  simp [renderAid]

theorem incrPairs_of_not_mem (mon : List Char) (pairs : List (List Char × Nat))
    (hmem : mon ∉ pairs.map Prod.fst) : incrPairs mon pairs = pairs := by
  induction pairs with
  | nil => rfl
  | cons q rest ih =>
    have h1 : ¬ q.1 = mon := fun e => hmem (by simp [e])
    have h2 : mon ∉ rest.map Prod.fst := fun m => hmem (by simp [m])
    show (q.1, if q.1 = mon then q.2 + 1 else q.2) :: incrPairs mon rest = q :: rest
    rw [if_neg h1, ih h2]

theorem flatTokens_incr_ne (mon : List Char) (pairs : List (List Char × Nat))
    (hmem : mon ∈ pairs.map Prod.fst) :
    (incrPairs mon pairs).flatMap (fun q => [q.1, fmt3 q.2]) ≠
      pairs.flatMap (fun q => [q.1, fmt3 q.2]) := by
  induction pairs with
  | nil => simp at hmem
  | cons q rest ih =>
    by_cases hq : q.1 = mon
    · intro h
      simp only [incrPairs, List.map_cons, List.flatMap_cons, if_pos hq,
        List.cons_append, List.nil_append, List.cons.injEq] at h
      exact absurd (fmt3_injective h.2.1) (by omega)
    · intro h
      simp only [incrPairs, List.map_cons, List.flatMap_cons, if_neg hq,
        List.cons_append, List.nil_append, List.cons.injEq] at h
      have hmem2 := hmem
      rw [List.map_cons, List.mem_cons] at hmem2
      rcases hmem2 with h1 | h1
      · exact absurd h1.symm hq
      · exact ih h1 h.2.2

theorem renderAid_incr_ne (pre : List Char) (pairs : List (List Char × Nat))
    (mon : List Char) (hsp : ∀ q ∈ pairs, '_' ∉ q.1)
    (hmem : mon ∈ pairs.map Prod.fst) :
    renderAid pre (incrPairs mon pairs) ≠ renderAid pre pairs := by
  intro h
  have hsp2 : ∀ q ∈ incrPairs mon pairs, '_' ∉ q.1 := by
    intro q hq
    rcases List.mem_map.mp hq with ⟨r, hr, he⟩
    subst he
    exact hsp r hr
  have h2 : pre ++ renderPairs (incrPairs mon pairs) = pre ++ renderPairs pairs :=
    congrArg String.data h
  have h3 : renderPairs (incrPairs mon pairs) = renderPairs pairs :=
    List.append_cancel_left h2
  have h5 := splitU_renderPairs (incrPairs mon pairs) hsp2
  rw [h3, splitU_renderPairs pairs hsp] at h5
  have h6 := List.tail_eq_of_cons_eq h5
  exact flatTokens_incr_ne mon pairs hmem h6.symm

/-- Claim C1: for every well-formed aggregate id (a leading tag followed
by one or more `_species_count` pairs) and every species appearing in it,
`update_id` returns the id with the same tag and the same species in the
same order, the matching species' count incremented by exactly 1 and
re-rendered with `"{:03d}"` (`fmt3`), and every other pair reproduced
unchanged. -/
theorem update_id_advances_matching_species (pre : List Char)
    (pairs : List (List Char × Nat)) (mon : String)
    (hpre : '_' ∉ pre) (hsp : ∀ q ∈ pairs, '_' ∉ q.1)
    (hne : pairs ≠ []) (hmem : mon.data ∈ pairs.map Prod.fst) :
    update_id (renderAid pre pairs) mon =
      some (renderAid pre
        (pairs.map (fun q => (q.1, if q.1 = mon.data then q.2 + 1 else q.2)))) :=
  update_id_render pre pairs mon hpre hsp

/-- Witness for C1: `update_id "ag_a_000_b_002" "a" = some "ag_a_001_b_002"`. -/
theorem update_id_advances_matching_species_witness :
    (('_' ∉ (['a', 'g'] : List Char)) ∧
      (∀ q ∈ ([(['a'], 0), (['b'], 2)] : List (List Char × Nat)), '_' ∉ q.1) ∧
      ([(['a'], 0), (['b'], 2)] : List (List Char × Nat)) ≠ [] ∧
      "a".data ∈ ([(['a'], 0), (['b'], 2)] : List (List Char × Nat)).map Prod.fst) ∧
    update_id (renderAid ['a', 'g'] [(['a'], 0), (['b'], 2)]) "a" =
      some (renderAid ['a', 'g']
        (([(['a'], 0), (['b'], 2)] : List (List Char × Nat)).map
          (fun q => (q.1, if q.1 = "a".data then q.2 + 1 else q.2)))) :=
  ⟨⟨by decide, by decide, by decide, by decide⟩,
    update_id_advances_matching_species ['a', 'g'] [(['a'], 0), (['b'], 2)] "a"
      (by decide) (by decide) (by decide) (by decide)⟩

/-- Claim C10: for a well-formed aggregate id and a species tag that does
not appear in it, `update_id` raises no exception and reproduces the id
verbatim (the missing-slot case is silently a no-op). -/
theorem update_id_absent_species_noop (pre : List Char)
    (pairs : List (List Char × Nat)) (mon : String)
    (hpre : '_' ∉ pre) (hsp : ∀ q ∈ pairs, '_' ∉ q.1)
    (hmem : mon.data ∉ pairs.map Prod.fst) :
    update_id (renderAid pre pairs) mon = some (renderAid pre pairs) := by
  rw [update_id_render pre pairs mon hpre hsp, incrPairs_of_not_mem mon.data pairs hmem]

/-- Witness for C10: `update_id "ag_a_000_b_002" "c" = some "ag_a_000_b_002"`. -/
theorem update_id_absent_species_noop_witness :
    (('_' ∉ (['a', 'g'] : List Char)) ∧
      (∀ q ∈ ([(['a'], 0), (['b'], 2)] : List (List Char × Nat)), '_' ∉ q.1) ∧
      "c".data ∉ ([(['a'], 0), (['b'], 2)] : List (List Char × Nat)).map Prod.fst) ∧
    update_id (renderAid ['a', 'g'] [(['a'], 0), (['b'], 2)]) "c" =
      some (renderAid ['a', 'g'] [(['a'], 0), (['b'], 2)]) :=
  ⟨⟨by decide, by decide, by decide⟩,
    update_id_absent_species_noop ['a', 'g'] [(['a'], 0), (['b'], 2)] "c"
      (by decide) (by decide) (by decide)⟩

/-! ## Engine lemmas: the convergence loop and the final pass -/

theorem zip_self_map {β : Type*} (l : List α) (f : α → β) :
    l.zip (l.map f) = l.map (fun a => (a, f a)) := by
  induction l with
  | nil => rfl
  | cons a l ih => simp [ih]

theorem convRounds_rounds_le (opt : Nat → α → OptStatus) (dedup : List α → List α)
    (fuel : Nat) : ∀ round acc pool, (convRounds opt dedup fuel round acc pool).2 ≤ fuel := by
  induction fuel with
  | zero =>
    intro round acc pool
    exact Nat.le_refl 0
  | succ fuel ih =>
    intro round acc pool
    rw [convRounds]
    split
    · exact Nat.zero_le _
    · exact Nat.succ_le_succ (ih _ _ _)

theorem convRounds_not_mem (opt : Nat → α → OptStatus) (dedup : List α → List α)
    (x : α) (hx : ∀ r, opt r x = OptStatus.cycleExceeded) (fuel : Nat) :
    ∀ round acc pool, x ∉ acc → x ∉ (convRounds opt dedup fuel round acc pool).1 := by
  induction fuel with
  | zero =>
    intro round acc pool h
    exact h
  | succ fuel ih =>
    intro round acc pool h
    rw [convRounds]
    split
    · exact h
    · refine ih _ _ _ ?_
      intro hmem
      rcases List.mem_append.mp hmem with h1 | h1
      · exact h h1
      · rw [zip_self_map] at h1
        rcases List.mem_map.mp h1 with ⟨q, hq, he⟩
        have hf := List.mem_filter.mp hq
        rcases List.mem_map.mp hf.1 with ⟨a, _ha, he2⟩
        subst he2
        have hconv : opt round a = OptStatus.converged := by simpa using hf.2
        have hax : a = x := he
        subst hax
        rw [hx round] at hconv
        exact OptStatus.noConfusion hconv

/-- Claim C3: for every seed processed by `add_one`, the convergence loop
runs at most 10 optimisation rounds, and a candidate whose status is
`cycle-exceeded` in every round is never moved onto the accumulated
results list — after the rounds are exhausted it is discarded with the
remaining pool, which the loop never returns. -/
theorem convergence_loop_ten_rounds_drops_cycle_exceeded
    (opt : Nat → α → OptStatus) (dedup : List α → List α)
    (x : α) (pool acc : List α)
    (hx : ∀ r, opt r x = OptStatus.cycleExceeded) (hacc : x ∉ acc) :
    (convRounds opt dedup 10 0 acc pool).2 ≤ 10 ∧
      x ∉ (convRounds opt dedup 10 0 acc pool).1 :=
  ⟨convRounds_rounds_le opt dedup 10 0 acc pool,
    convRounds_not_mem opt dedup x hx 10 0 acc pool hacc⟩

/-- Witness for C3 at a concrete run: one candidate that is
cycle-exceeded in every round is absent from the accumulated result. -/
theorem convergence_loop_ten_rounds_drops_cycle_exceeded_witness :
    ((∀ r : Nat, (fun (_ : Nat) (_ : Nat) => OptStatus.cycleExceeded) r 0 =
        OptStatus.cycleExceeded) ∧ (0 : Nat) ∉ ([] : List Nat)) ∧
      ((convRounds (fun _ _ => OptStatus.cycleExceeded) (fun l => l) 10 0 [] [0]).2 ≤ 10 ∧
        (0 : Nat) ∉ (convRounds (fun _ _ => OptStatus.cycleExceeded) (fun l => l) 10 0 [] [0]).1) :=
  ⟨⟨fun _ => rfl, by decide⟩,
    convergence_loop_ten_rounds_drops_cycle_exceeded
      (fun _ _ => OptStatus.cycleExceeded) (fun l => l) 0 [0] []
      (fun _ => rfl) (by decide)⟩

/-- C2, evaluated at its failing input: one seed with two loosely
converged orientations, clustering keeps both (within its
at-most-`maximum_number_of_seeds = 2` contract), and the strict final
pass fails every candidate.  Python's remove-during-iteration slip skips
the second candidate after removing the first, so `add_one` returns
`[2]` even though candidate `2`'s strict re-optimisation does not
converge (it is never even run) — the claim requires it excluded. -/
theorem add_one_final_pass_returns_failed_candidate :
    (add_one envFinalPass [0] 2).result = AddOneResult.seeds [2] ∧
      envFinalPass.optimiseNormal 2 ≠ OptStatus.converged := by
  constructor
  · decide
  · decide

/-- Claim C7: when the stop signal is present at entry, `add_one` returns
the `StopIteration` sentinel at once — zero seeds processed and no seed
directories created — and that sentinel is distinct from the empty list
a normal "grew to zero candidates" call returns. -/
theorem add_one_stop_at_entry [DecidableEq α] (env : AddOneEnv α)
    (seeds : List α) (maxSeeds : Nat) (h : env.stopAtEntry = true) :
    add_one env seeds maxSeeds =
        ⟨AddOneResult.stopIteration, ([] : List String)⟩ ∧
      (AddOneResult.stopIteration : AddOneResult α) ≠ AddOneResult.seeds [] := by
  constructor
  · rw [add_one, if_pos h]
  · exact fun hc => AddOneResult.noConfusion hc

/-- Witness for C7 at a concrete environment with the signal present. -/
theorem add_one_stop_at_entry_witness :
    envStopped.stopAtEntry = true ∧
      (add_one envStopped [0] 2 = ⟨AddOneResult.stopIteration, []⟩ ∧
        (AddOneResult.stopIteration : AddOneResult Nat) ≠ AddOneResult.seeds []) :=
  ⟨rfl, add_one_stop_at_entry envStopped [0] 2 rfl⟩

/-! ## Orchestrator schedules and the pathway window -/

/-- Counterexample to C6 as stated: the schedules check `<= 256` before
escalating, so the value 256 itself still escalates — the 7th `solvate`
step uses 512 orientations and the 33rd `aggregate` pathway uses 264,
both exceeding the claimed cap of 256. -/
theorem orientations_cap_counterexample :
    solvateOrientations 6 = 512 ∧ aggregateOrientations 32 = 264 := by
  constructor
  · decide
  · decide

/-- Claim C6 amended: in `'auto'` mode both schedules start at 8;
`solvate` doubles after each step and `aggregate` adds 8 after each
pathway while the count is still ≤ 256, and the count stops escalating
once above 256 — so every step uses `min (8·2^k) 512` resp.
`min (8·(k+1)) 264` orientations, bounded by 512 resp. 264 (not 256:
the cap check runs before the escalation, overshooting once). -/
theorem orientations_schedule_capped (k : Nat) :
    solvateOrientations k = min (8 * 2 ^ k) 512 ∧
      aggregateOrientations k = min (8 * (k + 1)) 264 := by
  induction k with
  | zero => exact ⟨rfl, rfl⟩
  | succ k ih =>
    obtain ⟨h1, h2⟩ := ih
    refine ⟨?_, ?_⟩
    · show (if solvateOrientations k ≤ 256 then solvateOrientations k * 2
          else solvateOrientations k) = min (8 * 2 ^ (k + 1)) 512
      rw [h1, pow_succ]
      have hp : 2 ^ k ≤ 32 ∨ 64 ≤ 2 ^ k := by
        rcases le_or_lt k 5 with hk | hk
        · refine Or.inl ?_
          calc 2 ^ k ≤ 2 ^ 5 := Nat.pow_le_pow_right (by omega) hk
            _ = 32 := by norm_num
        · refine Or.inr ?_
          calc (64 : Nat) = 2 ^ 6 := by norm_num
            _ ≤ 2 ^ k := Nat.pow_le_pow_right (by omega) (by omega)
      split_ifs with h <;> omega
    · show (if aggregateOrientations k ≤ 256 then aggregateOrientations k + 8
          else aggregateOrientations k) = min (8 * (k + 1 + 1)) 264
      rw [h2]
      split_ifs with h <;> omega

/-- Inserting at an index boundary: `l.take (n + m) = l.take n ++ (l.drop n).take m`. -/
theorem take_add_append {γ : Type*} (n m : Nat) (l : List γ) :
    l.take (n + m) = l.take n ++ (l.drop n).take m := by
  induction n generalizing l with
  | zero => simp
  | succ n ih =>
    cases l with
    | nil => simp
    | cons a l => simp [Nat.succ_add, ih]

/-- Counterexample to C5 as stated: the claim quantifies over all
`n, m ≥ 0`, but a count of 0 selects the whole tail of the universe, so
with `m = 0` the concatenated windows repeat the tail instead of equaling
the `(f, n + 0)` window.  Universe: the two pathways of one `"a"` and one
`"b"` monomer. -/
theorem window_concat_counterexample :
    pathwaysToCalculate (complete_pathways (monomersToBeAdded [("a", 1), ("b", 1)])) 0 1 ++
        pathwaysToCalculate (complete_pathways (monomersToBeAdded [("a", 1), ("b", 1)])) (0 + 1) 0 ≠
      pathwaysToCalculate (complete_pathways (monomersToBeAdded [("a", 1), ("b", 1)])) 0 (1 + 0) := by
  decide

/-- Claim C5 amended: the window is a pure slice, so for positive counts
(`n, m ≥ 1`) the `(f, n)` window concatenated with the `(f+n, m)` window
equals the `(f, n+m)` window — no pathway repeated, none skipped — and a
count of 0 selects from `first_pathway` to the end of the universe.  (As
stated the claim also allowed `n = 0` or `m = 0`, where the 0-count
window is the whole remaining tail rather than an empty slice, and the
concatenation law fails; see the counterexample.) -/
theorem window_concat_of_pos (u : List (List String)) (f n m : Nat)
    (hn : 1 ≤ n) (hm : 1 ≤ m) :
    pathwaysToCalculate u f n ++ pathwaysToCalculate u (f + n) m =
        pathwaysToCalculate u f (n + m) ∧
      pathwaysToCalculate u f 0 = u.drop f := by
  constructor
  · rw [pathwaysToCalculate, pathwaysToCalculate, pathwaysToCalculate,
      if_pos (by omega : n ≠ 0), if_pos (by omega : m ≠ 0), if_pos (by omega : n + m ≠ 0)]
    rw [← List.take_drop, ← List.take_drop, ← List.take_drop]
    rw [← List.drop_drop]
    rw [← take_add_append]
  · rw [pathwaysToCalculate, if_neg (by omega)]

/-- Witness for C5's amended law at `f = 0`, `n = m = 1` on the
two-pathway universe. -/
theorem window_concat_of_pos_witness :
    (1 ≤ 1) ∧
      (pathwaysToCalculate (complete_pathways (monomersToBeAdded [("a", 1), ("b", 1)])) 0 1 ++
          pathwaysToCalculate (complete_pathways (monomersToBeAdded [("a", 1), ("b", 1)])) (0 + 1) 1 =
            pathwaysToCalculate (complete_pathways (monomersToBeAdded [("a", 1), ("b", 1)])) 0 (1 + 1) ∧
        pathwaysToCalculate (complete_pathways (monomersToBeAdded [("a", 1), ("b", 1)])) 0 0 =
          (complete_pathways (monomersToBeAdded [("a", 1), ("b", 1)])).drop 0) :=
  ⟨by decide,
    window_concat_of_pos (complete_pathways (monomersToBeAdded [("a", 1), ("b", 1)])) 0 1 1
      (by decide) (by decide)⟩

/-! ## Counting the distinct pathways (C4) -/

theorem mem_permFinset [DecidableEq α] {x l : List α} : x ∈ permFinset l ↔ x.Perm l := by
  rw [permFinset, List.mem_toFinset, List.mem_permutations']

theorem permFinset_nil [DecidableEq α] : permFinset ([] : List α) = {[]} := by
  ext x
  rw [mem_permFinset, Finset.mem_singleton, List.perm_nil]

theorem permFinset_eq_biUnion [DecidableEq α] (l : List α) (hl : l ≠ []) :
    permFinset l = l.toFinset.biUnion (fun a => (permFinset (l.erase a)).image (a :: ·)) := by
  ext x
  simp only [mem_permFinset, Finset.mem_biUnion, Finset.mem_image, List.mem_toFinset]
  constructor
  · intro hx
    cases x with
    | nil => exact absurd (List.perm_nil.mp hx.symm) hl
    | cons a y =>
      have h2 := List.cons_perm_iff_perm_erase.mp hx
      exact ⟨a, h2.1, y, h2.2, rfl⟩
  · rintro ⟨a, ha, y, hy, rfl⟩
    exact List.cons_perm_iff_perm_erase.mpr ⟨ha, hy⟩

theorem card_permFinset_recurrence [DecidableEq α] (l : List α) (hl : l ≠ []) :
    (permFinset l).card = ∑ a in l.toFinset, (permFinset (l.erase a)).card := by
  rw [permFinset_eq_biUnion l hl, Finset.card_biUnion]
  · refine Finset.sum_congr rfl ?_
    intro a _
    refine Finset.card_image_of_injective _ ?_
    intro y z h
    injection h
  · intro a _ b _ hab
    rw [Finset.disjoint_left]
    rintro x hx hx2
    rcases Finset.mem_image.mp hx with ⟨y, _, rfl⟩
    rcases Finset.mem_image.mp hx2 with ⟨z, _, he⟩
    injection he with he1 _
    exact hab he1.symm

theorem prod_factorial_erase [DecidableEq α] (l : List α) (a : α) (ha : a ∈ l) :
    l.count a * ∏ b in (l.erase a).toFinset, Nat.factorial ((l.erase a).count b) =
      ∏ b in l.toFinset, Nat.factorial (l.count b) := by
  have hsub : (l.erase a).toFinset ⊆ l.toFinset := by
    intro b hb
    exact List.mem_toFinset.mpr (List.erase_subset a l (List.mem_toFinset.mp hb))
  have hext : ∏ b in (l.erase a).toFinset, Nat.factorial ((l.erase a).count b) =
      ∏ b in l.toFinset, Nat.factorial ((l.erase a).count b) := by
    refine Finset.prod_subset hsub ?_
    intro b _ hnb
    have hb : b ∉ l.erase a := fun hm => hnb (List.mem_toFinset.mpr hm)
    rw [List.count_eq_zero.mpr hb]
    rfl
  have hmem : a ∈ l.toFinset := List.mem_toFinset.mpr ha
  rw [hext, ← Finset.mul_prod_erase l.toFinset
      (fun b => Nat.factorial ((l.erase a).count b)) hmem,
    ← Finset.mul_prod_erase l.toFinset (fun b => Nat.factorial (l.count b)) hmem,
    List.count_erase_self]
  have hcongr : ∏ b in l.toFinset.erase a, Nat.factorial ((l.erase a).count b) =
      ∏ b in l.toFinset.erase a, Nat.factorial (l.count b) := by
    refine Finset.prod_congr rfl ?_
    intro b hb
    rw [List.count_erase_of_ne (Finset.mem_erase.mp hb).1]
  rw [hcongr, ← Nat.mul_assoc,
    Nat.mul_factorial_pred (List.count_pos_iff.mpr ha)]

theorem card_permFinset_mul_prod [DecidableEq α] :
    ∀ (n : Nat) (l : List α), l.length = n →
      (permFinset l).card * ∏ a in l.toFinset, Nat.factorial (l.count a) =
        Nat.factorial l.length := by
  intro n
  induction n with
  | zero =>
    intro l hl
    have he : l = [] := List.length_eq_zero.mp hl
    subst he
    rw [permFinset_nil]
    rfl
  | succ n ih =>
    intro l hl
    have hl0 : l ≠ [] := by
      intro e
      rw [e] at hl
      exact absurd hl (by simp)
    rw [card_permFinset_recurrence l hl0, Finset.sum_mul]
    have hstep : ∀ a ∈ l.toFinset,
        (permFinset (l.erase a)).card * ∏ b in l.toFinset, Nat.factorial (l.count b) =
          l.count a * Nat.factorial n := by
      intro a ha
      have hal : a ∈ l := List.mem_toFinset.mp ha
      have hlen : (l.erase a).length = n := by
        rw [List.length_erase_of_mem hal, hl]
        omega
      rw [← prod_factorial_erase l a hal, ← Nat.mul_assoc,
        Nat.mul_comm (permFinset (l.erase a)).card (l.count a), Nat.mul_assoc,
        ih (l.erase a) hlen, hlen]
    rw [Finset.sum_congr rfl hstep, ← Finset.sum_mul]
    have hsum : ∑ a in l.toFinset, l.count a = l.length := by
      have hms := Multiset.toFinset_sum_count_eq (l : Multiset α)
      simpa [List.toFinset_coe, Multiset.coe_count, Multiset.coe_card] using hms
    rw [hsum, hl, Nat.factorial_succ]

theorem complete_pathways_length_eq_card (monomers : List String) :
    (complete_pathways monomers).length = (permFinset monomers).card :=
  (List.card_toFinset _).symm

theorem length_monomersToBeAdded (specs : List (String × Nat)) :
    (monomersToBeAdded specs).length = (specs.map Prod.snd).sum := by
  induction specs with
  | nil => rfl
  | cons q rest ih =>
    show (List.replicate q.2 q.1 ++ monomersToBeAdded rest).length = _
    rw [List.length_append, List.length_replicate, ih, List.map_cons, List.sum_cons]

theorem count_monomersToBeAdded_of_not_mem (specs : List (String × Nat)) (s : String)
    (h : s ∉ specs.map Prod.fst) : (monomersToBeAdded specs).count s = 0 := by
  induction specs with
  | nil => rfl
  | cons q rest ih =>
    have h1 : ¬ q.1 = s := fun e => h (by simp [e])
    have h2 : s ∉ rest.map Prod.fst := fun m => h (by simp [m])
    show (List.replicate q.2 q.1 ++ monomersToBeAdded rest).count s = 0
    rw [List.count_append, List.count_replicate, if_neg (by simpa using h1), ih h2]

theorem prod_count_factorial_monomers (specs : List (String × Nat))
    (h : (specs.map Prod.fst).Nodup) :
    ∏ a in (monomersToBeAdded specs).toFinset,
        Nat.factorial ((monomersToBeAdded specs).count a) =
      (specs.map (fun q => Nat.factorial q.2)).prod := by
  induction specs with
  | nil => rfl
  | cons q rest ih =>
    have hnd : q.1 ∉ rest.map Prod.fst ∧ (rest.map Prod.fst).Nodup := by
      rw [List.map_cons, List.nodup_cons] at h
      exact h
    have hcount0 : (monomersToBeAdded rest).count q.1 = 0 :=
      count_monomersToBeAdded_of_not_mem rest q.1 hnd.1
    have hnotmem : q.1 ∉ monomersToBeAdded rest := List.count_eq_zero.mp hcount0
    show ∏ a in (List.replicate q.2 q.1 ++ monomersToBeAdded rest).toFinset,
        Nat.factorial ((List.replicate q.2 q.1 ++ monomersToBeAdded rest).count a) =
      (List.map (fun q => Nat.factorial q.2) (q :: rest)).prod
    rcases Nat.eq_zero_or_pos q.2 with h0 | hpos
    · rw [h0]
      show ∏ a in (List.replicate 0 q.1 ++ monomersToBeAdded rest).toFinset,
          Nat.factorial ((List.replicate 0 q.1 ++ monomersToBeAdded rest).count a) = _
      rw [List.replicate_zero, List.nil_append, ih hnd.2, List.map_cons, List.prod_cons, h0,
        Nat.factorial_zero, Nat.one_mul]
    · rw [List.toFinset_append, List.toFinset_replicate_of_ne_zero (by omega),
        ← Finset.insert_eq,
        Finset.prod_insert (fun hmem => hnotmem (List.mem_toFinset.mp hmem))]
      have hc1 : (List.replicate q.2 q.1 ++ monomersToBeAdded rest).count q.1 = q.2 := by
        rw [List.count_append, List.count_replicate, if_pos (by simp), hcount0]
        omega
      have hcongr : ∏ b in (monomersToBeAdded rest).toFinset,
          Nat.factorial ((List.replicate q.2 q.1 ++ monomersToBeAdded rest).count b) =
            ∏ b in (monomersToBeAdded rest).toFinset,
              Nat.factorial ((monomersToBeAdded rest).count b) := by
        refine Finset.prod_congr rfl ?_
        intro b hb
        have hbq : ¬ q.1 = b := fun e => hnotmem (e ▸ List.mem_toFinset.mp hb)
        rw [List.count_append, List.count_replicate, if_neg (by simpa using hbq),
          Nat.zero_add]
      rw [hc1, hcongr, ih hnd.2, List.map_cons, List.prod_cons]

/-- Claim C4: with pairwise-distinct species tags, the pathway
enumeration contains no duplicate pathway, and the number of pathways is
exactly the multiset-permutation count `n! / (k_1! ⋯ k_m!)`, where `n`
is the total unit count and `k_i` the per-species unit counts. -/
theorem complete_pathways_multinomial (specs : List (String × Nat))
    (h : (specs.map Prod.fst).Nodup) :
    (complete_pathways (monomersToBeAdded specs)).Nodup ∧
      (complete_pathways (monomersToBeAdded specs)).length =
        Nat.factorial ((specs.map Prod.snd).sum) /
          (specs.map (fun q => Nat.factorial q.2)).prod := by
  constructor
  · exact List.nodup_dedup _
  · have hmain := card_permFinset_mul_prod (monomersToBeAdded specs).length
      (monomersToBeAdded specs) rfl
    rw [prod_count_factorial_monomers specs h, length_monomersToBeAdded] at hmain
    have hpos : 0 < (specs.map (fun q => Nat.factorial q.2)).prod := by
      refine List.prod_pos ?_
      intro x hx
      rcases List.mem_map.mp hx with ⟨r, _, rfl⟩
      exact Nat.factorial_pos r.2
    rw [complete_pathways_length_eq_card]
    exact (Nat.div_eq_of_eq_mul_left hpos hmain.symm).symm

/-- Witness for C4: one `"a"` and one `"b"` give `2!/(1!·1!) = 2`
duplicate-free pathways. -/
theorem complete_pathways_multinomial_witness :
    (([(("a" : String), 1), ("b", 1)].map Prod.fst).Nodup) ∧
      ((complete_pathways (monomersToBeAdded [("a", 1), ("b", 1)])).Nodup ∧
        (complete_pathways (monomersToBeAdded [("a", 1), ("b", 1)])).length =
          Nat.factorial (([(("a" : String), 1), ("b", 1)].map Prod.snd).sum) /
            ([(("a" : String), 1), ("b", 1)].map (fun q => Nat.factorial q.2)).prod) :=
  ⟨by decide, complete_pathways_multinomial [("a", 1), ("b", 1)] (by decide)⟩

/-! ## The seed-storage sliding window (C9) -/

theorem odGet_self {V : Type*} (k : String) (v : V) (rest : List (String × V)) :
    odGet k ((k, v) :: rest) = some v := by
  rw [odGet, if_pos rfl]

theorem incrPairs_map_fst (mon : List Char) (pairs : List (List Char × Nat)) :
    (incrPairs mon pairs).map Prod.fst = pairs.map Prod.fst := by
  induction pairs with
  | nil => rfl
  | cons q rest ih =>
    show q.1 :: (incrPairs mon rest).map Prod.fst = q.1 :: rest.map Prod.fst
    rw [ih]

theorem pathwayWalk_from_singleton {V : Type*} (sv : String → V)
    (av : String → V → String → V) (pre : List Char) (names : List (List Char))
    (hpre : '_' ∉ pre) (hnames : ∀ s ∈ names, '_' ∉ s) :
    ∀ (mons : List String) (pairs : List (List Char × Nat)) (v : V),
      pairs.map Prod.fst = names → (∀ m ∈ mons, m.data ∈ names) →
      ∃ (pairs2 : List (List Char × Nat)) (w : V),
        pathwayWalk sv av ⟨renderAid pre pairs, [(renderAid pre pairs, v)]⟩ mons =
            some ⟨renderAid pre pairs2, [(renderAid pre pairs2, w)]⟩ ∧
          pairs2.map Prod.fst = names := by
  intro mons
  induction mons with
  | nil =>
    intro pairs v hp _hm
    exact ⟨pairs, v, rfl, hp⟩
  | cons m rest ih =>
    intro pairs v hp hm
    have hsp : ∀ q ∈ pairs, '_' ∉ q.1 := by
      intro q hq
      exact hnames q.1 (hp ▸ List.mem_map_of_mem Prod.fst hq)
    have hmem : m.data ∈ pairs.map Prod.fst := by
      rw [hp]
      exact hm m (List.mem_cons_self m rest)
    have hupd := update_id_render pre pairs m hpre hsp
    have hne := renderAid_incr_ne pre pairs m.data hsp hmem
    have hstep : pathwayStep sv av ⟨renderAid pre pairs, [(renderAid pre pairs, v)]⟩ m =
        some ⟨renderAid pre (incrPairs m.data pairs),
          [(renderAid pre (incrPairs m.data pairs),
            av (renderAid pre (incrPairs m.data pairs)) v m)]⟩ := by
      simp [pathwayStep, odGet, odSet, odPopFront, hupd, Ne.symm hne]
    rw [pathwayWalk, hstep]
    exact ih (incrPairs m.data pairs) (av (renderAid pre (incrPairs m.data pairs)) v m)
      (by rw [incrPairs_map_fst, hp]) (fun x hx => hm x (List.mem_cons_of_mem _ hx))

/-- Claim C9: during mixed-composition growth, after every completed
monomer-addition step of a pathway the seed storage holds exactly one
entry, keyed by the most recently advanced aggregate id — the entry
stored in that step: retirement pops the first-inserted
(previous-generation) entry, never the current one.  `mons` ranges over
every nonempty pathway prefix, so the invariant holds after each step;
`names` are the species slots seeded into the initial id, one per
species occurring in the pathway. -/
theorem seed_storage_single_current_entry {V : Type*} (sv : String → V)
    (av : String → V → String → V) (pre : List Char) (names : List (List Char))
    (pairs0 : List (List Char × Nat)) (mons : List String)
    (hpre : '_' ∉ pre) (hnames : ∀ s ∈ names, '_' ∉ s)
    (hp0 : pairs0.map Prod.fst = names) (hm : ∀ m ∈ mons, m.data ∈ names)
    (hne : mons ≠ []) :
    ∃ (st : AggState V) (w : V),
      pathwayWalk sv av ⟨renderAid pre pairs0, []⟩ mons = some st ∧
        st.storage = [(st.agId, w)] := by
  cases mons with
  | nil => exact absurd rfl hne
  | cons m rest =>
    have hsp : ∀ q ∈ pairs0, '_' ∉ q.1 := by
      intro q hq
      exact hnames q.1 (hp0 ▸ List.mem_map_of_mem Prod.fst hq)
    have hupd := update_id_render pre pairs0 m hpre hsp
    have hstep : pathwayStep sv av ⟨renderAid pre pairs0, []⟩ m =
        some ⟨renderAid pre (incrPairs m.data pairs0),
          [(renderAid pre (incrPairs m.data pairs0), sv m)]⟩ := by
      simp [pathwayStep, odSet, hupd]
    rw [pathwayWalk, hstep]
    obtain ⟨pairs2, w, hw, _⟩ := pathwayWalk_from_singleton sv av pre names hpre hnames rest
      (incrPairs m.data pairs0) (sv m) (by rw [incrPairs_map_fst, hp0])
      (fun x hx => hm x (List.mem_cons_of_mem _ hx))
    exact ⟨⟨renderAid pre pairs2, [(renderAid pre pairs2, w)]⟩, w, hw, rfl⟩

/-- Witness for C9: the single-species pathway `a, a` from `ag_a_000`
with empty storage ends with exactly one entry keyed by the current id. -/
theorem seed_storage_single_current_entry_witness :
    (('_' ∉ (['a', 'g'] : List Char)) ∧
      (∀ s ∈ ([['a']] : List (List Char)), '_' ∉ s) ∧
      ([((['a'] : List Char), 0)].map Prod.fst = ([['a']] : List (List Char))) ∧
      (∀ m ∈ (["a", "a"] : List String), m.data ∈ ([['a']] : List (List Char))) ∧
      (["a", "a"] : List String) ≠ []) ∧
    ∃ (st : AggState Nat) (w : Nat),
      pathwayWalk (fun _ => 0) (fun _ _ _ => 1)
          ⟨renderAid ['a', 'g'] [(['a'], 0)], []⟩ ["a", "a"] = some st ∧
        st.storage = [(st.agId, w)] :=
  ⟨⟨by decide, by decide, by decide, by decide, by decide⟩,
    seed_storage_single_current_entry (fun _ => 0) (fun _ _ _ => 1) ['a', 'g'] [['a']]
      [(['a'], 0)] ["a", "a"] (by decide) (by decide) (by decide) (by decide) (by decide)⟩

end Pyar
